import Mathlib

/-!
Verification of the chunking/retrieval pipeline of `poc_rag_builder`.

The Python sources are shallowly embedded: Python strings are `List Char`,
`dict` fields that may be absent are `Option`, floating-point similarity
scores are `ℚ` (the aggregation code only compares scores, never does
arithmetic on them), and the character-window chunker — whose `while` loop
is not structurally recursive — is embedded with an explicit fuel
parameter, returning `none` when the fuel runs out before the loop exits.
-/

namespace PocRag

/-- The whitespace characters of Python's `str.strip` / `re` `\s` class
(ASCII range; the sources only feed ASCII program text through these). -/
def pyIsSpace (c : Char) : Bool :=
  c = ' ' || c = '\t' || c = '\n' || c = '\r' || c = Char.ofNat 11 || c = Char.ofNat 12

/-- Python `str.strip()`: drop whitespace from both ends. -/
def pyStrip (l : List Char) : List Char :=
  ((l.dropWhile pyIsSpace).reverse.dropWhile pyIsSpace).reverse

/-!
## Character-window chunker

`ComponentIngestor.chunk_text` (src/bckup/ingest_components.py lines 21-36):

```python
text = text.strip()
if not text:
    return []
chunks = []
start = 0
L = len(text)
while start < L:
    end = min(L, start + max_chars)
    chunks.append(text[start:end].strip())
    start = end - overlap
    if start < 0:
        start = 0
return chunks
```

The `while` loop is embedded with fuel; `chunkLoop ... fuel = none` means
the loop has not exited after `fuel` iterations.  Python's
`start = end - overlap; if start < 0: start = 0` is exactly truncated
subtraction on `Nat`.
-/

/-- One-to-one embedding of the `while start < L` loop of `chunk_text`. -/
def chunkLoop (maxChars overlap : Nat) (t : List Char) :
    Nat → Nat → List (List Char) → Option (List (List Char))
  | _, 0, _ => none
  | start, fuel + 1, acc =>
    if start < t.length then
      let e := min t.length (start + maxChars)
      let piece := pyStrip ((t.drop start).take (e - start))
      chunkLoop maxChars overlap t (e - overlap) fuel (acc ++ [piece])
    else
      some acc

/-- `ComponentIngestor.chunk_text`, fuel-indexed.  `some cs` means the
Python function returns `cs` within `fuel` loop iterations; `none` means
it is still looping after `fuel` iterations. -/
def chunk_text (text : List Char) (maxChars overlap fuel : Nat) :
    Option (List (List Char)) :=
  let t := pyStrip text
  if t = [] then some [] else chunkLoop maxChars overlap t 0 fuel []

/-- With any `overlap ≥ 1` the loop invariant `start < L` is preserved
forever: the next start is `min L (start + maxChars) - overlap ≤ L - 1`,
so the loop condition `start < L` never becomes false and the loop never
exits, whatever the fuel. -/
theorem chunkLoop_no_exit (maxChars overlap : Nat) (t : List Char)
    (hov : 1 ≤ overlap) :
    ∀ fuel start acc, start < t.length →
      chunkLoop maxChars overlap t start fuel acc = none := by
  intro fuel
  induction fuel with
  | zero => intro start acc _; rfl
  | succ n ih =>
    intro start acc hlt
    simp only [chunkLoop, if_pos hlt]
    exact ih _ _ (by omega)

/-- `chunk_text` never returns for any nonzero overlap and any text that
is nonempty after stripping: the fuel-indexed embedding yields `none` at
every fuel. -/
theorem chunk_text_diverges (text : List Char) (maxChars overlap fuel : Nat)
    (hov : 1 ≤ overlap) (hne : pyStrip text ≠ []) :
    chunk_text text maxChars overlap fuel = none := by
  unfold chunk_text
  simp only [if_neg hne]
  exact chunkLoop_no_exit maxChars overlap _ hov fuel 0 []
    (List.length_pos.mpr hne)

/-- C1: the claim states that for every `0 ≤ overlap < max_size` the
character-window chunker's fragments, read as spans of `t`, reconstruct
`t` with no gaps.  The code violates it: at the concrete valid input
`text = "ab"`, `max_size = 2`, `overlap = 1` the chunker never returns a
fragment list at all (the `while` loop reaches `start = 1` and then sets
`start = min L (start+2) - 1 = 1` forever), so no fragment sequence —
reconstructing or otherwise — is ever produced. -/
theorem C1_chunk_text_no_fragments_at_ab :
    ∀ fuel, chunk_text "ab".toList 2 1 fuel = none := by
  intro fuel
  exact chunk_text_diverges _ _ _ _ (by decide) (by decide)

/-- C2: the claim states the chunker advances the window start by
`max_size - overlap` each step and terminates.  In the code the new start
is `min L (start + max_chars) - overlap`, which once the window reaches
the end of the text is `L - overlap < L`; hence for every nonzero
`overlap` and every text that is nonempty after stripping, the loop never
terminates. -/
theorem C2_chunk_text_never_terminates (text : List Char)
    (maxChars overlap fuel : Nat)
    (hov : 1 ≤ overlap) (hne : pyStrip text ≠ []) :
    chunk_text text maxChars overlap fuel = none :=
  chunk_text_diverges text maxChars overlap fuel hov hne

/-- Witness for C2 at the function's own default parameters
(`max_chars = 600`, `overlap = 50`) on the text `"hello"`. -/
theorem C2_chunk_text_never_terminates_witness :
    chunk_text "hello".toList 600 50 1000 = none :=
  C2_chunk_text_never_terminates "hello".toList 600 50 1000
    (by decide) (by decide)

/-!
## Text normalizer

`ComponentIngestor.clean_text` (src/bckup/latest/ingest_components.py
lines 14-30):

```python
if not text:
    return ""
text = re.sub(r'\s+', ' ', text.strip())
text = re.sub(r'import\s+.*?from\s+["\'].*?["\'];?', '', text)
text = re.sub(r'export\s+(default\s+)?', '', text)
text = re.sub(r':\s*React\.\w+', '', text)
text = re.sub(r'React\.\w+<.*?>', '', text)
return text.strip()
```

Each regular expression is embedded as a prefix matcher
`List Char → Option (List Char)` returning the remainder after a match at
the head of the list, and `reSubDel` replays `re.sub(pattern, '', text)`:
scan left to right, at each position try the matcher, on success continue
after the match, otherwise keep the character.  The matchers follow the
Python `re` semantics of these concrete patterns: greedy `\s+`/`\s*`/`\w+`
never need to backtrack here because the character class that follows is
disjoint from the repeated class, and the lazy `.*?` segments take the
first position (trying further ones on failure of the rest of the
pattern) without crossing a newline.  Word characters and whitespace are
modelled over ASCII, which covers the program text this repository feeds
through the function.
-/

/-- Match a literal string at the head, returning the remainder. -/
def matchLit : List Char → List Char → Option (List Char)
  | [], l => some l
  | _ :: _, [] => none
  | p :: ps, c :: cs => if c = p then matchLit ps cs else none

/-- Greedy `\s+`: at least one whitespace character, consuming the whole
run. -/
def wsPlus : List Char → Option (List Char)
  | [] => none
  | c :: cs => if pyIsSpace c then some (cs.dropWhile pyIsSpace) else none

/-- Python `\w` over ASCII: letters, digits, underscore. -/
def isWordChar (c : Char) : Bool := c.isAlphanum || c = '_'

def isQuoteChar (c : Char) : Bool := c = '"' || c = '\''

/-- `export\s+(default\s+)?`: the optional greedy group is taken when it
matches, otherwise the match ends after the first whitespace run. -/
def matchExport (l : List Char) : Option (List Char) :=
  match matchLit "export".toList l with
  | none => none
  | some r =>
    match wsPlus r with
    | none => none
    | some r2 =>
      match matchLit "default".toList r2 with
      | none => some r2
      | some r3 =>
        match wsPlus r3 with
        | none => some r2
        | some r4 => some r4

/-- `.*?["\']`: lazily scan (not past a newline) to the first quote,
consuming it. -/
def scanToQuote : List Char → Option (List Char)
  | [] => none
  | c :: cs => if isQuoteChar c then some cs else if c = '\n' then none else scanToQuote cs

/-- `;?`: consume one semicolon when present. -/
def dropSemi : List Char → List Char
  | [] => []
  | c :: cs => if c = ';' then cs else c :: cs

/-- The tail `from\s+["\'].*?["\'];?` of the import pattern, tried at one
candidate position. -/
def importTail (p : List Char) : Option (List Char) :=
  match matchLit "from".toList p with
  | none => none
  | some r =>
    match wsPlus r with
    | none => none
    | some r2 =>
      match r2 with
      | [] => none
      | c :: cs => if isQuoteChar c then (scanToQuote cs).map dropSemi else none

/-- The lazy `.*?` before `from`: try the tail at the current position
first, then move one (non-newline) character at a time. -/
def importScan : List Char → Option (List Char)
  | [] => none
  | c :: cs =>
    match importTail (c :: cs) with
    | some r => some r
    | none => if c = '\n' then none else importScan cs

/-- The pattern removing import statements. -/
def matchImport (l : List Char) : Option (List Char) :=
  match matchLit "import".toList l with
  | none => none
  | some r =>
    match wsPlus r with
    | none => none
    | some r2 => importScan r2

/-- `:\s*React\.\w+`. -/
def matchColonReact : List Char → Option (List Char)
  | [] => none
  | c :: cs =>
    if c = ':' then
      match matchLit "React.".toList (cs.dropWhile pyIsSpace) with
      | none => none
      | some r2 =>
        match r2 with
        | [] => none
        | d :: ds => if isWordChar d then some (ds.dropWhile isWordChar) else none
    else none

/-- `.*?>`: lazily scan (not past a newline) to the first `>`. -/
def scanToGt : List Char → Option (List Char)
  | [] => none
  | c :: cs => if c = '>' then some cs else if c = '\n' then none else scanToGt cs

/-- `React\.\w+<.*?>`. -/
def matchReactGeneric (l : List Char) : Option (List Char) :=
  match matchLit "React.".toList l with
  | none => none
  | some r =>
    match r with
    | [] => none
    | d :: ds =>
      if isWordChar d then
        match ds.dropWhile isWordChar with
        | [] => none
        | e :: es => if e = '<' then scanToGt es else none
      else none

/-- `re.sub(pattern, '', text)`: left-to-right scan deleting every
non-overlapping match.  Fuel-indexed (fuel = input length suffices since
every accepted match consumes at least one character; a shorter-than-
expected match is treated as no match, which never happens for the
matchers above). -/
def reSubDelF (m : List Char → Option (List Char)) : Nat → List Char → List Char
  | 0, l => l
  | _ + 1, [] => []
  | fuel + 1, c :: cs =>
    match m (c :: cs) with
    | some r => if r.length < cs.length + 1 then reSubDelF m fuel r else c :: reSubDelF m fuel cs
    | none => c :: reSubDelF m fuel cs

def reSubDel (m : List Char → Option (List Char)) (l : List Char) : List Char :=
  reSubDelF m l.length l

/-- `re.sub(r'\s+', ' ', text)`: collapse every whitespace run to one
space. -/
def collapseWs : List Char → List Char
  | [] => []
  | [c] => if pyIsSpace c then [' '] else [c]
  | c :: d :: cs =>
    if pyIsSpace c then
      if pyIsSpace d then collapseWs (d :: cs) else ' ' :: collapseWs (d :: cs)
    else c :: collapseWs (d :: cs)

/-- `ComponentIngestor.clean_text` on a string argument.  The leading
`if not text` guard is the `text = []` test. -/
def clean_text (text : List Char) : List Char :=
  if text = [] then []
  else
    pyStrip (reSubDel matchReactGeneric (reSubDel matchColonReact
      (reSubDel matchExport (reSubDel matchImport (collapseWs (pyStrip text))))))

/-- `clean_text` as called with a possibly-`None` argument: `if not text`
is also satisfied by `None`. -/
def clean_textOpt : Option (List Char) → List Char
  | none => []
  | some t => clean_text t

theorem dropWhile_dropWhile (p : Char → Bool) (l : List Char) :
    (l.dropWhile p).dropWhile p = l.dropWhile p := by
  induction l with
  | nil => rfl
  | cons c cs ih =>
    by_cases h : p c
    · simp [List.dropWhile_cons, h, ih]
    · simp [List.dropWhile_cons, h]

theorem dropWhile_take_of_self (p : Char → Bool) (l : List Char)
    (h : l.dropWhile p = l) (n : Nat) :
    (l.take n).dropWhile p = l.take n := by
  cases l with
  | nil => simp
  | cons c cs =>
    have hc : p c = false := by
      by_cases hp : p c
      · exfalso
        rw [List.dropWhile_cons, if_pos hp] at h
        have hlen : (cs.dropWhile p).length ≤ cs.length :=
          (List.dropWhile_suffix p).length_le
        rw [h] at hlen
        simp at hlen
      · simpa using hp
    cases n with
    | zero => simp
    | succ m => simp [List.dropWhile_cons, hc]

/-- Stripping is idempotent: the output of `pyStrip` has no leading or
trailing whitespace left to remove. -/
theorem pyStrip_idem (l : List Char) : pyStrip (pyStrip l) = pyStrip l := by
  unfold pyStrip
  have hAself : (l.dropWhile pyIsSpace).dropWhile pyIsSpace = l.dropWhile pyIsSpace :=
    dropWhile_dropWhile _ _
  have hCself :
      ((l.dropWhile pyIsSpace).reverse.dropWhile pyIsSpace).dropWhile pyIsSpace =
        (l.dropWhile pyIsSpace).reverse.dropWhile pyIsSpace :=
    dropWhile_dropWhile _ _
  have hpre :
      ((l.dropWhile pyIsSpace).reverse.dropWhile pyIsSpace).reverse <+: l.dropWhile pyIsSpace := by
    have hsuf : (l.dropWhile pyIsSpace).reverse.dropWhile pyIsSpace <:+
        (l.dropWhile pyIsSpace).reverse := List.dropWhile_suffix _
    exact List.reverse_suffix.mp (by simpa using hsuf)
  have h1 :
      (((l.dropWhile pyIsSpace).reverse.dropWhile pyIsSpace).reverse).dropWhile pyIsSpace =
        ((l.dropWhile pyIsSpace).reverse.dropWhile pyIsSpace).reverse := by
    rw [List.prefix_iff_eq_take.mp hpre]
    exact dropWhile_take_of_self _ _ hAself _
  rw [h1, List.reverse_reverse, hCself]

/-- C4 counterexample: `normalize` is not idempotent.  On
`"a : React.Foo b"` the first pass removes the annotation
`": React.Foo"`, splicing the two surrounding spaces into a double space
(`"a  b"`); only a second pass collapses it to `"a b"`. -/
theorem C4_normalize_not_idempotent_cex :
    ¬ (clean_text (clean_text "a : React.Foo b".toList) =
        clean_text "a : React.Foo b".toList) := by decide

/-- C4 amended: `normalize` is total (a plain function of its input),
empty or `None` input yields the empty string, and its output is always
fully stripped; full idempotence, however, fails (see the
counterexample). -/
theorem C4_normalize_total_empty_stripped :
    clean_textOpt none = [] ∧ clean_text [] = [] ∧
      ∀ s : List Char, pyStrip (clean_text s) = clean_text s := by
  refine ⟨rfl, rfl, ?_⟩
  intro s
  unfold clean_text
  by_cases h : s = []
  · simp [h, pyStrip]
  · simp only [if_neg h]
    exact pyStrip_idem _

/-!
## Statement-aware splitter

`ComponentIngestor.split_code` (src/bckup/latest/ingest_components.py
lines 202-232):

```python
if len(code) <= max_length:
    return [code]
chunks = []
current_chunk = ""
sentences = re.split(r'[.;\x7b\x7d]\s*', code)
for sentence in sentences:
    sentence = sentence.strip()
    if not sentence:
        continue
    if len(current_chunk) + len(sentence) > max_length and current_chunk:
        chunks.append(current_chunk.strip())
        current_chunk = sentence
    else:
        if current_chunk:
            current_chunk += " " + sentence
        else:
            current_chunk = sentence
if current_chunk:
    chunks.append(current_chunk.strip())
return chunks
```
-/

/-- The statement delimiters `.`, `;`, `{` (123), `}` (125). -/
def isDelim (c : Char) : Bool :=
  c = '.' || c = ';' || c = Char.ofNat 123 || c = Char.ofNat 125

/-- `re.split(r'[.;\x7b\x7d]\s*', code)`: each match is one delimiter
plus the whitespace run after it; the pieces between matches are
returned (empty pieces included).  Fuel = input length suffices: every
step consumes at least one character. -/
def splitStmtsF : Nat → List Char → List Char → List (List Char)
  | _, cur, [] => [cur]
  | 0, cur, l => [cur ++ l]
  | fuel + 1, cur, c :: cs =>
    if isDelim c then cur :: splitStmtsF fuel [] (cs.dropWhile pyIsSpace)
    else splitStmtsF fuel (cur ++ [c]) cs

def splitStatements (code : List Char) : List (List Char) :=
  splitStmtsF code.length [] code

/-- The accumulation loop of `split_code` over the split segments. -/
def scLoop (maxLen : Nat) : List (List Char) → List Char → List (List Char) → List (List Char)
  | [], cur, chunks => if cur ≠ [] then chunks ++ [pyStrip cur] else chunks
  | s :: rest, cur, chunks =>
    if pyStrip s = [] then scLoop maxLen rest cur chunks
    else if maxLen < cur.length + (pyStrip s).length ∧ cur ≠ [] then
      scLoop maxLen rest (pyStrip s) (chunks ++ [pyStrip cur])
    else if cur = [] then scLoop maxLen rest (pyStrip s) chunks
    else scLoop maxLen rest (cur ++ ' ' :: pyStrip s) chunks

/-- `ComponentIngestor.split_code`. -/
def split_code (code : List Char) (maxLen : Nat) : List (List Char) :=
  if code.length ≤ maxLen then [code]
  else scLoop maxLen (splitStatements code) [] []

theorem pyStrip_length_le (l : List Char) : (pyStrip l).length ≤ l.length := by
  unfold pyStrip
  have h1 : ((l.dropWhile pyIsSpace).reverse.dropWhile pyIsSpace).length ≤
      (l.dropWhile pyIsSpace).reverse.length := (List.dropWhile_suffix _).length_le
  have h2 : (l.dropWhile pyIsSpace).length ≤ l.length := (List.dropWhile_suffix _).length_le
  simp only [List.length_reverse] at *
  omega

/-- Invariant carried by `scLoop`: every chunk it ever emits is either a
single trimmed segment or of length at most `maxLen + 1`. -/
theorem scLoop_inv (maxLen : Nat) (segs : List (List Char)) :
    ∀ rest cur chunks,
      (∀ s ∈ rest, s ∈ segs) →
      (cur = [] ∨ (∃ s ∈ segs, cur = pyStrip s) ∨ cur.length ≤ maxLen + 1) →
      (∀ c ∈ chunks, c.length ≤ maxLen + 1 ∨ ∃ s ∈ segs, c = pyStrip s) →
      ∀ c ∈ scLoop maxLen rest cur chunks,
        c.length ≤ maxLen + 1 ∨ ∃ s ∈ segs, c = pyStrip s := by
  intro rest
  induction rest with
  | nil =>
    intro cur chunks _ hcur hchunks c hc
    simp only [scLoop] at hc
    by_cases hne : cur = []
    · simp [hne] at hc
      exact hchunks c hc
    · rw [if_pos hne] at hc
      rcases List.mem_append.mp hc with h | h
      · exact hchunks c h
      · simp only [List.mem_singleton] at h
        subst h
        rcases hcur with rfl | ⟨s, hs, rfl⟩ | hlen
        · exact absurd rfl hne
        · exact Or.inr ⟨s, hs, pyStrip_idem s⟩
        · exact Or.inl (le_trans (pyStrip_length_le _) hlen)
  | cons s rest ih =>
    intro cur chunks hrest hcur hchunks c hc
    have hs : s ∈ segs := hrest s (List.mem_cons_self s rest)
    have hrest' : ∀ t ∈ rest, t ∈ segs := fun t ht => hrest t (List.mem_cons_of_mem s ht)
    simp only [scLoop] at hc
    by_cases h0 : pyStrip s = []
    · rw [if_pos h0] at hc
      exact ih cur chunks hrest' hcur hchunks c hc
    · rw [if_neg h0] at hc
      by_cases h1 : maxLen < cur.length + (pyStrip s).length ∧ cur ≠ []
      · rw [if_pos h1] at hc
        refine ih (pyStrip s) (chunks ++ [pyStrip cur]) hrest'
          (Or.inr (Or.inl ⟨s, hs, rfl⟩)) ?_ c hc
        intro d hd
        rcases List.mem_append.mp hd with h | h
        · exact hchunks d h
        · simp only [List.mem_singleton] at h
          subst h
          rcases hcur with rfl | ⟨t, ht, rfl⟩ | hlen
          · exact absurd rfl h1.2
          · exact Or.inr ⟨t, ht, pyStrip_idem t⟩
          · exact Or.inl (le_trans (pyStrip_length_le _) hlen)
      · rw [if_neg h1] at hc
        by_cases h2 : cur = []
        · rw [if_pos h2] at hc
          exact ih (pyStrip s) chunks hrest' (Or.inr (Or.inl ⟨s, hs, rfl⟩)) hchunks c hc
        · rw [if_neg h2] at hc
          have hle : cur.length + (pyStrip s).length ≤ maxLen := by
            by_contra hgt
            exact h1 ⟨by omega, h2⟩
          refine ih (cur ++ ' ' :: pyStrip s) chunks hrest'
            (Or.inr (Or.inr ?_)) hchunks c hc
          simp only [List.length_append, List.length_cons]
          omega

/-- C7 counterexample: at `code = "abcde"`, `max_size = 3` (text longer
than the limit, containing none of the delimiters) the splitter returns
the whole text as one fragment of length `5 > 3`: there is no
character-window fallback. -/
theorem C7_split_code_overlong_cex :
    split_code "abcde".toList 3 = ["abcde".toList] ∧ 3 < "abcde".toList.length := by
  decide

/-- C7 amended: the splitter breaks at the delimiters `.;` `\x7b` `\x7d`
but has no character-window fallback; every fragment it returns is either
a single trimmed delimiter-delimited segment of the input (whose length
is unbounded) or has length at most `max_size + 1` (the joining space is
not counted by the length check, hence the `+ 1`). -/
theorem C7_split_code_fragment_shape (code : List Char) (maxLen : Nat)
    (chunk : List Char) (h : chunk ∈ split_code code maxLen) :
    chunk.length ≤ maxLen + 1 ∨ ∃ s ∈ splitStatements code, chunk = pyStrip s := by
  unfold split_code at h
  by_cases hs : code.length ≤ maxLen
  · rw [if_pos hs] at h
    simp only [List.mem_singleton] at h
    subst h
    exact Or.inl (by omega)
  · rw [if_neg hs] at h
    exact scLoop_inv maxLen (splitStatements code) (splitStatements code) [] []
      (fun s hs => hs) (Or.inl rfl) (by simp) chunk h

/-- Witness for C7's amended theorem at the counterexample input: the
over-long fragment is a single delimiter-free segment. -/
theorem C7_split_code_fragment_shape_witness :
    "abcde".toList.length ≤ 3 + 1 ∨
      ∃ s ∈ splitStatements "abcde".toList, "abcde".toList = pyStrip s :=
  C7_split_code_fragment_shape "abcde".toList 3 "abcde".toList (by decide)

/-!
## Size-bounded partitioner

`ComponentIngestor.split_file_by_size` (src/bckup/ingest_components.py
lines 201-240).  A document is opaque JSON; the code only ever uses two
numbers of it: `len(json.dumps(doc).encode('utf-8'))` — the
default-separator serialization length, used for the running size — and
the compact serialization length (`separators=(',', ':')`) that actually
reaches the partition file.  A document is therefore embedded as that
pair of sizes.  A written partition file is
`"[" + ",".flatten(compact docs) + "]"`, i.e. `2 + Σ compactSize + (n-1)`
bytes for `n ≥ 1` documents.
-/

structure JDoc where
  /-- `len(json.dumps(doc).encode('utf-8'))`, default separators. -/
  dumpSize : Nat
  /-- length of `json.dumps(doc, separators=(',', ':'))`. -/
  compactSize : Nat
deriving DecidableEq, Repr

/-- Byte size of the file `json.dump(batch, f, separators=(',', ':'))`
writes: brackets, the compact documents, and `n - 1` commas. -/
def partFileSize (batch : List JDoc) : Nat :=
  2 + (batch.map (·.compactSize)).sum + (batch.length - 1)

/-- The document loop of `split_file_by_size`: flush the current batch
whenever adding the next document would push the running size over the
bound, then append the document; emit the final batch if nonempty. -/
def splitLoop (maxB : Nat) : List JDoc → List JDoc → Nat → List (List JDoc)
  | [], batch, _ => if batch ≠ [] then [batch] else []
  | d :: ds, batch, size =>
    if maxB < size + d.dumpSize ∧ batch ≠ [] then
      batch :: splitLoop maxB ds [d] d.dumpSize
    else
      splitLoop maxB ds (batch ++ [d]) (size + d.dumpSize)

/-- `ComponentIngestor.split_file_by_size` (partition contents). -/
def split_file_by_size (docs : List JDoc) (maxB : Nat) : List (List JDoc) :=
  splitLoop maxB docs [] 0

theorem splitLoop_join (maxB : Nat) :
    ∀ (docs batch : List JDoc) (size : Nat),
      (splitLoop maxB docs batch size).flatten = batch ++ docs := by
  intro docs
  induction docs with
  | nil =>
    intro batch size
    by_cases h : batch = [] <;> simp [splitLoop, h]
  | cons d ds ih =>
    intro batch size
    by_cases h : maxB < size + d.dumpSize ∧ batch ≠ []
    · simp [splitLoop, if_pos h, List.flatten, ih]
    · simp [splitLoop, if_neg h, ih]

theorem splitLoop_bound (maxB : Nat) :
    ∀ (docs batch : List JDoc) (size : Nat),
      size = (batch.map (·.dumpSize)).sum →
      ((batch.map (·.dumpSize)).sum ≤ maxB ∨
        ∃ d, batch = [d] ∧ maxB < d.dumpSize) →
      ∀ p ∈ splitLoop maxB docs batch size,
        (p.map (·.dumpSize)).sum ≤ maxB ∨ ∃ d, p = [d] ∧ maxB < d.dumpSize := by
  intro docs
  induction docs with
  | nil =>
    intro batch size _ hinv p hp
    by_cases h : batch = []
    · simp [splitLoop, h] at hp
    · simp only [splitLoop, if_pos h, List.mem_singleton] at hp
      subst hp
      exact hinv
  | cons d ds ih =>
    intro batch size hsize hinv p hp
    by_cases h : maxB < size + d.dumpSize ∧ batch ≠ []
    · rw [splitLoop, if_pos h] at hp
      rcases List.mem_cons.mp hp with rfl | hp'
      · exact hinv
      · refine ih [d] d.dumpSize (by simp) ?_ p hp'
        by_cases hd : d.dumpSize ≤ maxB
        · exact Or.inl (by simpa using hd)
        · exact Or.inr ⟨d, rfl, by omega⟩
    · rw [splitLoop, if_neg h] at hp
      by_cases hb : batch = []
      · subst hb
        simp only [List.map_nil, List.sum_nil] at hsize
        subst hsize
        refine ih [d] (0 + d.dumpSize) (by simp) ?_ p (by simpa using hp)
        by_cases hd : d.dumpSize ≤ maxB
        · exact Or.inl (by simpa using hd)
        · exact Or.inr ⟨d, rfl, by omega⟩
      · have hle : size + d.dumpSize ≤ maxB := by
          by_contra hgt
          exact h ⟨by omega, hb⟩
        refine ih (batch ++ [d]) (size + d.dumpSize) (by simp [hsize]) ?_ p hp
        exact Or.inl (by simp [← hsize]; omega)

/-- C6 counterexample: with bound `7` and four scalar documents whose
serialization is 2 bytes under both separator settings (e.g. the JSON
number `11`), the first flushed partition holds three documents and its
written file `[11,11,11]` is 10 bytes — over the bound — while every
document in it is far below the bound.  The running size the code checks
ignores the brackets and commas of the partition file. -/
theorem C6_partition_over_bound_cex :
    ∃ p ∈ split_file_by_size [⟨2, 2⟩, ⟨2, 2⟩, ⟨2, 2⟩, ⟨2, 2⟩] 7,
      7 < partFileSize p ∧ ∀ d ∈ p, d.compactSize ≤ 7 ∧ d.dumpSize ≤ 7 := by
  decide

/-- C6 amended: concatenating the partitions reproduces the document
sequence exactly, and the quantity the code actually bounds — the sum of
the documents' default-separator serialization sizes — stays at or below
the bound for every partition, except a partition holding a single
document whose size already exceeds the bound.  The written file itself
can exceed the bound by its `n + 1` bracket/comma bytes (see the
counterexample). -/
theorem C6_partition_reconstruct_and_sum_bound (docs : List JDoc) (maxB : Nat) :
    (split_file_by_size docs maxB).flatten = docs ∧
      ∀ p ∈ split_file_by_size docs maxB,
        (p.map (·.dumpSize)).sum ≤ maxB ∨ ∃ d, p = [d] ∧ maxB < d.dumpSize := by
  constructor
  · simpa using splitLoop_join maxB docs [] 0
  · exact splitLoop_bound maxB docs [] 0 (by simp) (Or.inl (by simp))

/-- Witness for the amended C6 theorem at the counterexample input. -/
theorem C6_partition_reconstruct_and_sum_bound_witness :
    (split_file_by_size [⟨2, 2⟩, ⟨2, 2⟩, ⟨2, 2⟩, ⟨2, 2⟩] 7).flatten =
        [⟨2, 2⟩, ⟨2, 2⟩, ⟨2, 2⟩, ⟨2, 2⟩] ∧
      (([⟨2, 2⟩, ⟨2, 2⟩, ⟨2, 2⟩] : List JDoc).map (·.dumpSize)).sum ≤ 7 ∨
        ∃ d, ([⟨2, 2⟩, ⟨2, 2⟩, ⟨2, 2⟩] : List JDoc) = [d] ∧ 7 < d.dumpSize := by
  exact Or.inl ⟨(C6_partition_reconstruct_and_sum_bound _ 7).1,
    by have := (C6_partition_reconstruct_and_sum_bound
      [⟨2, 2⟩, ⟨2, 2⟩, ⟨2, 2⟩, ⟨2, 2⟩] 7).2 [⟨2, 2⟩, ⟨2, 2⟩, ⟨2, 2⟩] (by decide)
       rcases this with h | ⟨d, hd, _⟩
       · exact h
       · simp at hd⟩

/-!
## Document-to-fragments mapper

`ComponentIngestor.extract_component_chunks`, `format_props_info`,
`extract_prop_type`, `process_code_snippet` and `clean_code_for_search`
(src/bckup/latest/ingest_components.py lines 32-200).

A component document is a JSON object; a field read through
`component.get(key)` is `Option`-valued (`none` = key absent, which in
the code behaves like the falsy `None`).  A prop's `type` read through
`prop_info.get('type', {})` defaults to the empty dict, so a missing
`type` key is embedded as `.pdict []` (an empty `name`); a prop value
that is not a dict at all is `.nondict` and is skipped by the loop.
`defaultValue` is embedded as `some s` exactly when the key is present
with a truthy value whose `str()` is `s`.
-/

/-- The `type` field of a prop descriptor. -/
inductive PropType
  /-- a dict; `name` is `type_info.get('name', '')`. -/
  | pdict (name : List Char)
  /-- a plain string. -/
  | pstr (s : List Char)
  /-- any other JSON value. -/
  | pother
deriving DecidableEq, Repr

structure PropInfo where
  ptype : PropType
  description : Option (List Char)
  /-- truthiness of `prop_info.get('required')`. -/
  required : Bool
  /-- `some s` iff `'defaultValue' in prop_info and prop_info['defaultValue']`,
  with `s = str(prop_info['defaultValue'])`. -/
  defaultValue : Option (List Char)
deriving DecidableEq, Repr

/-- A value of the `props` dict: a descriptor dict or anything else. -/
inductive PropVal
  | pv (info : PropInfo)
  | nondict
deriving DecidableEq, Repr

structure Component where
  id : Option (List Char)
  name : Option (List Char)
  description : Option (List Char)
  file : Option (List Char)
  /-- the `props` dict as an insertion-ordered association list; `none`
  covers both an absent key and a non-dict value (either fails the
  `component.get('props') and isinstance(..., dict)` guard; an empty
  dict is `some []`, which is falsy and also skipped). -/
  props : Option (List (List Char × PropVal))
  raw : Option (List Char)
deriving Repr

structure Chunk where
  chunk_id : List Char
  component_id : List Char
  component_name : List Char
  file : List Char
  chunk_type : List Char
  text : List Char
deriving DecidableEq, Repr

/-- Python `str.split(sep)` for a one-character separator (empty pieces
kept). -/
def splitChar (sep : Char) : List Char → List (List Char)
  | [] => [[]]
  | c :: cs =>
    match splitChar sep cs with
    | [] => [[]]
    | p :: ps => if c = sep then [] :: p :: ps else (c :: p) :: ps

/-- `ComponentIngestor.extract_prop_type`. -/
def extract_prop_type : PropType → List Char
  | .pdict name => name
  | .pstr s => s
  | .pother => []

/-- The body of the prop loop of `format_props_info` for one dict-valued
prop. -/
def formatProp (name : List Char) (pi : PropInfo) : List Char :=
  let parts := [name]
  let parts := parts ++
    (if extract_prop_type pi.ptype ≠ [] then
        ["type: ".toList ++ extract_prop_type pi.ptype] else [])
  let parts := parts ++
    (match pi.description with
      | some d =>
        if d ≠ [] then
          (if clean_text d ≠ [] then ["description: ".toList ++ clean_text d] else [])
        else []
      | none => [])
  let parts := parts ++ (if pi.required then ["required".toList] else ["optional".toList])
  let parts := parts ++
    (match pi.defaultValue with
      | some dv => if dv.length < 50 then ["default: ".toList ++ dv] else []
      | none => [])
  List.intercalate " - ".toList parts

/-- `ComponentIngestor.format_props_info`. -/
def format_props_info (props : List (List Char × PropVal)) (component_name : List Char) :
    List Char :=
  if props = [] then []
  else
    List.intercalate " | ".toList
      ((component_name ++ " component props:".toList) ::
        props.filterMap (fun p =>
          match p.2 with
          | .pv info => some (formatProp p.1 info)
          | .nondict => none))

/-- `ComponentIngestor.clean_code_for_search`. -/
def clean_code_for_search (code : List Char) : List Char :=
  let kept := ((splitChar '\n' code).map pyStrip).filter (fun line =>
    !(line.isEmpty || (matchLit "import ".toList line).isSome
      || (matchLit "export ".toList line).isSome
      || ((matchLit "//".toList line).isSome && !(matchLit "///".toList line).isSome)))
  pyStrip (collapseWs (List.intercalate [' '] kept))

/-- `ComponentIngestor.process_code_snippet`. -/
def process_code_snippet (raw component_id component_name file_path : List Char) :
    List Chunk :=
  if raw = [] ∨ (pyStrip raw).length < 50 then []
  else
    let cleaned := clean_code_for_search raw
    if cleaned.length ≤ 600 then
      [⟨component_id ++ "_code".toList, component_id, component_name, file_path,
        "code".toList, component_name ++ " implementation: ".toList ++ cleaned⟩]
    else
      (split_code cleaned 500).enum.map (fun p =>
        ⟨component_id ++ "_code_".toList ++ (Nat.repr p.1).toList, component_id,
          component_name, file_path, "code".toList,
          component_name ++ " code part ".toList ++ (Nat.repr (p.1 + 1)).toList ++
            ": ".toList ++ p.2⟩)

/-- `ComponentIngestor.extract_component_chunks`. -/
def extract_component_chunks (c : Component) : List Chunk :=
  let component_name := c.name.getD "Unknown".toList
  let file_path := c.file.getD []
  let component_id := c.id.getD []
  let basic_parts :=
    ["Component: ".toList ++ component_name]
    ++ (match c.description with
        | some d =>
          if d ≠ [] then
            (if clean_text d ≠ [] then ["Description: ".toList ++ clean_text d] else [])
          else []
        | none => [])
    ++ (if file_path ≠ [] then
          [ "Location: ".toList ++
            (if 3 < (splitChar '/' file_path).length then
              List.intercalate ['/']
                ((splitChar '/' file_path).drop ((splitChar '/' file_path).length - 3))
            else file_path)]
        else [])
  let basicChunk : Chunk :=
    ⟨component_id ++ "_basic".toList, component_id, component_name, file_path,
      "basic_info".toList, List.intercalate " | ".toList basic_parts⟩
  let propsChunks :=
    match c.props with
    | some props =>
      if props ≠ [] then
        (if format_props_info props component_name ≠ [] then
          [(⟨component_id ++ "_props".toList, component_id, component_name, file_path,
            "props".toList, format_props_info props component_name⟩ : Chunk)]
        else [])
      else []
    | none => []
  let codeChunks :=
    match c.raw with
    | some raw =>
      if raw ≠ [] then process_code_snippet raw component_id component_name file_path
      else []
    | none => []
  basicChunk :: (propsChunks ++ codeChunks)

/-- Every chunk `process_code_snippet` emits has `chunk_type = "code"`
and carries the component name it was given. -/
theorem process_code_snippet_fields (raw cid nm fp : List Char) :
    ∀ ch ∈ process_code_snippet raw cid nm fp,
      ch.chunk_type = "code".toList ∧ ch.component_name = nm := by
  intro ch hch
  unfold process_code_snippet at hch
  by_cases h0 : raw = [] ∨ (pyStrip raw).length < 50
  · rw [if_pos h0] at hch
    simp at hch
  · rw [if_neg h0] at hch
    by_cases h1 : (clean_code_for_search raw).length ≤ 600
    · rw [if_pos h1] at hch
      simp only [List.mem_singleton] at hch
      subst hch
      exact ⟨rfl, rfl⟩
    · rw [if_neg h1] at hch
      obtain ⟨p, _, rfl⟩ := List.mem_map.mp hch
      exact ⟨rfl, rfl⟩

/-- C8: the mapper is a total function of the document; it always
produces a leading `basic_info` fragment; a document with no `props`
yields no `props` fragment; one with no `raw` yields no `code` fragment;
a missing `name` is replaced by the placeholder `"Unknown"` on every
fragment. -/
theorem C8_mapper_missing_fields (c : Component) :
    extract_component_chunks c ≠ [] ∧
    ((extract_component_chunks c).head?.map (fun ch => ch.chunk_type) =
      some "basic_info".toList) ∧
    (c.props = none → ∀ ch ∈ extract_component_chunks c,
      ch.chunk_type ≠ "props".toList) ∧
    (c.raw = none → ∀ ch ∈ extract_component_chunks c,
      ch.chunk_type ≠ "code".toList) ∧
    (c.name = none → ∀ ch ∈ extract_component_chunks c,
      ch.component_name = "Unknown".toList) := by
  have hsplit : ∀ ch ∈ extract_component_chunks c,
      ch.chunk_type = "basic_info".toList ∧
          ch.component_name = c.name.getD "Unknown".toList ∨
        ch.chunk_type = "props".toList ∧
          ch.component_name = c.name.getD "Unknown".toList ∧ c.props ≠ none ∨
        ch.chunk_type = "code".toList ∧
          ch.component_name = c.name.getD "Unknown".toList ∧ c.raw ≠ none := by
    intro ch hch
    simp only [extract_component_chunks] at hch
    rcases List.mem_cons.mp hch with rfl | hch'
    · exact Or.inl ⟨rfl, rfl⟩
    rcases List.mem_append.mp hch' with h | h
    · cases hcp : c.props with
      | none => simp only [hcp] at h; simp at h
      | some props =>
        simp only [hcp] at h
        by_cases hp : props ≠ []
        · rw [if_pos hp] at h
          by_cases hf : format_props_info props (c.name.getD "Unknown".toList) ≠ []
          · rw [if_pos hf] at h
            simp only [List.mem_singleton] at h
            subst h
            exact Or.inr (Or.inl ⟨rfl, rfl, by simp [hcp]⟩)
          · rw [if_neg hf] at h; simp at h
        · rw [if_neg hp] at h; simp at h
    · cases hcr : c.raw with
      | none => simp only [hcr] at h; simp at h
      | some raw =>
        simp only [hcr] at h
        by_cases hr : raw ≠ []
        · rw [if_pos hr] at h
          obtain ⟨ht, hn⟩ := process_code_snippet_fields _ _ _ _ ch h
          exact Or.inr (Or.inr ⟨ht, hn, by simp [hcr]⟩)
        · rw [if_neg hr] at h; simp at h
  refine ⟨by simp [extract_component_chunks], by simp [extract_component_chunks], ?_, ?_, ?_⟩
  · intro hp ch hch
    rcases hsplit ch hch with ⟨ht, _⟩ | ⟨_, _, hne⟩ | ⟨ht, _, _⟩
    · rw [ht]; decide
    · exact absurd hp hne
    · rw [ht]; decide
  · intro hr ch hch
    rcases hsplit ch hch with ⟨ht, _⟩ | ⟨ht, _, _⟩ | ⟨_, _, hne⟩
    · rw [ht]; decide
    · rw [ht]; decide
    · exact absurd hr hne
  · intro hn ch hch
    rcases hsplit ch hch with ⟨_, hnm⟩ | ⟨_, hnm, _⟩ | ⟨_, hnm, _⟩ <;>
      rw [hnm, hn] <;> rfl

/-- Witness for C8 at a document carrying only an `id`: its (sole,
`basic_info`) fragment gets the placeholder name `"Unknown"`. -/
theorem C8_mapper_missing_fields_witness :
    (⟨"c9_basic".toList, "c9".toList, "Unknown".toList, [], "basic_info".toList,
      "Component: Unknown".toList⟩ : Chunk).component_name = "Unknown".toList :=
  (C8_mapper_missing_fields ⟨some "c9".toList, none, none, none, none, none⟩).2.2.2.2
    rfl _ (by decide)


/-- `pat` is a prefix of `l`. -/
def hasPre : List Char → List Char → Bool
  | [], _ => true
  | _ :: _, [] => false
  | p :: ps, c :: cs => c = p && hasPre ps cs

/-- `pat` occurs contiguously inside `l` (Python `pat in l`). -/
def hasSub (pat : List Char) : List Char → Bool
  | [] => hasPre pat []
  | c :: cs => hasPre pat (c :: cs) || hasSub pat cs

/-- The end-to-end example document of the spec. -/
def buttonComponent : Component :=
  { id := some "c1".toList
    name := some "Button".toList
    description := some "A clickable button".toList
    file := none
    props := some [("onClick".toList,
      .pv { ptype := .pstr "func".toList, description := none,
            required := true, defaultValue := none })]
    raw := none }

/-- C9: mapping the Button document yields exactly two fragments — a
`basic_info` fragment whose text contains "Button" and "clickable
button", and a `props` fragment whose text contains "onClick" and
"required".  (`max_size = 500` plays no role: the document has no `raw`
snippet, and the other two fragment kinds are single fragments by
construction.) -/
theorem C9_button_example :
    (extract_component_chunks buttonComponent).map (fun ch => (ch.chunk_type, ch.text)) =
      [("basic_info".toList,
          "Component: Button | Description: A clickable button".toList),
        ("props".toList,
          "Button component props: | onClick - type: func - required".toList)] ∧
      hasSub "Button".toList
        "Component: Button | Description: A clickable button".toList = true ∧
      hasSub "clickable button".toList
        "Component: Button | Description: A clickable button".toList = true ∧
      hasSub "onClick".toList
        "Button component props: | onClick - type: func - required".toList = true ∧
      hasSub "required".toList
        "Button component props: | onClick - type: func - required".toList = true := by
  decide


/-!
## Streaming collection processor

`ComponentIngestor.minimal_ingest` (src/bckup/ingest_components.py lines
54-116) together with the write side of `process_single_component`
(lines 118-199).  The file-system footprint is the pair of paths the
function touches: the final output path and the temporary path
(`output.with_suffix('.tmp')`).  Documents and chunks are abstract (the
per-document chunker is a parameter `mapper`; the real one is settled
under C1/C2).

Error handling is two-level, and the embedding keeps both levels:

* The per-chunk writes — `f_out.write(",\n")` and
  `json.dump(chunk_obj, f_out, ...)` — happen inside
  `process_single_component`, whose `try ... except Exception: print`
  SWALLOWS any error: the function just returns the number of chunks it
  completed, the remaining chunks of that document are skipped, and
  `minimal_ingest` carries on with the next document.  `failAt = some k`
  injects such a failure: the `json.dump` of the k-th chunk-write event
  (global count, in order) raises after its separator (if any) was
  written, leaving a `torn` item — a strict prefix of that chunk's
  serialization — in the temporary file.

* The writes in `minimal_ingest` itself — creating the temporary file
  and its opening `"[\n"`, the input stream iteration, the closing
  `"\n]\n"`, and `temp_file.rename(output)` — are only guarded by the
  outer `try/except`, which unlinks the temporary file (if it exists)
  and re-raises.  `ofail` injects a failure of one of these.

On the success path (`ofail = .ok`) the rename atomically publishes the
temporary content — the header, whatever the per-document loop wrote
(torn items included), and the footer — over the final path, and
`minimal_ingest` prints the completed-chunk count.  `max_components`
follows the code's truthiness test: `some 0` is falsy and means no
limit, like `none`.
-/

structure FS (γ : Type) where
  /-- content of the final output path (`none` = absent). -/
  final : Option (List γ)
  /-- content of the temporary path. -/
  temp : Option (List γ)
deriving DecidableEq

/-- The `if max_components and processed_components >= max_components:
break` guard: the loop processes `docs.take m` when `m` is truthy. -/
def takeDocs {δ : Type} (maxc : Option Nat) (docs : List δ) : List δ :=
  match maxc with
  | none => docs
  | some m => if m = 0 then docs else docs.take m

/-- One write to the temporary file. -/
inductive WItem (γ : Type)
  /-- the opening `"[\n"`. -/
  | header
  /-- one `",\n"` separator. -/
  | sep
  /-- a completed `json.dump` of one chunk. -/
  | chunk (c : γ)
  /-- an interrupted `json.dump`: a strict prefix of the chunk's
  serialization was written before the error. -/
  | torn (c : γ)
  /-- the closing `"\n]\n"`. -/
  | footer
deriving DecidableEq

/-- The chunk-write loop of `process_single_component` for one document:
`noSep` is the `first_chunk and i == 0` case in which no `",\n"` is
written.  Returns the items written, the number of completed chunk
writes (the function's `chunks_written`), and whether an error was
swallowed.  A failure injected at event `k` interrupts that chunk's
`json.dump` (its separator, when due, is already on disk) and — because
the whole loop sits in `try ... except Exception: print` — ends this
document's writes without propagating. -/
def writeChunks {γ : Type} (failAt : Option Nat) :
    List γ → Nat → Bool → List (WItem γ) × Nat × Bool
  | [], _, _ => ([], 0, false)
  | c :: cs, k, noSep =>
    let sepPart : List (WItem γ) := if noSep then [] else [WItem.sep]
    if failAt = some k then
      (sepPart ++ [WItem.torn c], 0, true)
    else
      let r := writeChunks failAt cs (k + 1) false
      (sepPart ++ WItem.chunk c :: r.1, r.2.1 + 1, r.2.2)

/-- The per-document loop of `minimal_ingest`: each document's chunks
are written by `process_single_component`; `first_chunk` is cleared only
when that call reports `chunks_written > 0`.  Returns all items written,
the total completed-chunk count (`idx`), and whether any per-document
error was swallowed along the way. -/
def ingestDocs {δ γ : Type} (mapper : δ → List γ) (failAt : Option Nat) :
    List δ → Nat → Bool → List (WItem γ) × Nat × Bool
  | [], _, _ => ([], 0, false)
  | d :: ds, k, firstChunk =>
    let w := writeChunks failAt (mapper d) k firstChunk
    let r := ingestDocs mapper failAt ds (k + (mapper d).length)
      (if 0 < w.2.1 then false else firstChunk)
    (w.1 ++ r.1, w.2.1 + r.2.1, w.2.2 || r.2.2)

/-- A failure of one of the writes that `minimal_ingest` itself
performs, reaching its own `try/except` (which unlinks the temporary
file and re-raises). -/
inductive OuterFail
  | ok
  /-- opening the temporary file / writing `"[\n"` / iterating the
  input stream raises. -/
  | atHeader
  /-- writing the closing `"\n]\n"` raises. -/
  | atFooter
  /-- `temp_file.rename(output)` raises. -/
  | atRename
deriving DecidableEq

/-- `ComponentIngestor.minimal_ingest`: resulting file-system state and
outcome (`.ok idx` = the printed success path; `.error` = the re-raised
exception after the handler's cleanup). -/
def minimal_ingest {δ γ : Type} (mapper : δ → List γ) (docs : List δ)
    (maxc : Option Nat) (failAt : Option Nat) (ofail : OuterFail)
    (fs0 : FS (WItem γ)) : FS (WItem γ) × Except Unit Nat :=
  match ofail with
  | .atHeader => (⟨fs0.final, none⟩, .error ())
  | .atFooter => (⟨fs0.final, none⟩, .error ())
  | .atRename => (⟨fs0.final, none⟩, .error ())
  | .ok =>
    let w := ingestDocs mapper failAt (takeDocs maxc docs) 0 true
    (⟨some (WItem.header :: w.1 ++ [WItem.footer]), none⟩, .ok w.2.1)

/-- The well-formed body for a chunk sequence: every chunk completely
written, consecutive chunks separated, no separator before the first
chunk. -/
def goodBody {γ : Type} : List γ → Bool → List (WItem γ)
  | [], _ => []
  | c :: cs, true => WItem.chunk c :: goodBody cs false
  | c :: cs, false => WItem.sep :: WItem.chunk c :: goodBody cs false

theorem writeChunks_no_fail {γ : Type} :
    ∀ (cs : List γ) (k : Nat) (fc : Bool),
      writeChunks none cs k fc = (goodBody cs fc, cs.length, false) := by
  intro cs
  induction cs with
  | nil => intro k fc; rfl
  | cons c cs ih =>
    intro k fc
    have hne : (none : Option Nat) ≠ some k := by simp
    cases fc <;>
      simp [writeChunks, hne, ih (k + 1) false, goodBody]

theorem goodBody_append {γ : Type} (a b : List γ) :
    ∀ fc : Bool, goodBody (a ++ b) fc =
      goodBody a fc ++ goodBody b (if a.isEmpty then fc else false) := by
  induction a with
  | nil => intro fc; simp [goodBody]
  | cons c cs ih =>
    intro fc
    cases fc <;> simp [goodBody, ih false, ite_self]

theorem ingestDocs_no_fail {δ γ : Type} (mapper : δ → List γ) :
    ∀ (docs : List δ) (k : Nat) (fc : Bool),
      ingestDocs mapper none docs k fc =
        (goodBody ((docs.map mapper).flatten) fc,
          ((docs.map mapper).flatten).length, false) := by
  intro docs
  induction docs with
  | nil => intro k fc; rfl
  | cons d ds ih =>
    intro k fc
    rw [ingestDocs, writeChunks_no_fail, ih]
    have hfc : (if 0 < (mapper d).length then false else fc) =
        (if (mapper d).isEmpty then fc else false) := by
      cases hm : mapper d <;> simp
    simp only [List.map_cons, List.flatten_cons, goodBody_append, hfc,
      List.length_append, Bool.or_self]

/-- C5 counterexample: two one-chunk documents; the `json.dump` of the
first chunk is interrupted (event 0).  `process_single_component`
swallows the error and the run continues, so — contrary to the claim —
the error is NOT re-raised, the temporary artifact is NOT deleted, and
the rename publishes a partially written file (a torn first fragment,
and no separator before the next one, because `first_chunk` was never
cleared) over the prior final content. -/
theorem C5_swallowed_write_error_cex :
    minimal_ingest (fun d : Nat => [d]) [1, 2] none (some 0) OuterFail.ok
        ⟨some [WItem.chunk 9], none⟩ =
      (⟨some [WItem.header, WItem.torn 1, WItem.chunk 2, WItem.footer], none⟩,
        Except.ok 1) ∧
    (some [WItem.header, WItem.torn 1, WItem.chunk 2, WItem.footer] :
        Option (List (WItem Nat))) ≠ some [WItem.chunk 9] ∧
    [WItem.header, WItem.torn 1, WItem.chunk 2, WItem.footer] ≠
      WItem.header :: goodBody [1, 2] true ++ [WItem.footer] := by
  exact ⟨rfl, by decide, by decide⟩

/-- C5 amended: all fragment writes go to the temporary path only; any
error reaching `minimal_ingest`'s own handler (header, input iteration,
footer, rename) is re-raised after deleting the temporary artifact, with
the prior final output intact; a successful run always removes the
temporary path and publishes a `"[" ... "]"`-wrapped file; and a run
with no write failure publishes exactly the complete, well-formed
fragment collection of the processed documents.  (What the original
claim missed: a failure during a chunk write is swallowed by
`process_single_component`, so the success path can publish a torn
fragment — see the counterexample.) -/
theorem C5_minimal_ingest_outer_atomicity {δ γ : Type} (mapper : δ → List γ)
    (docs : List δ) (maxc failAt : Option Nat) (ofail : OuterFail)
    (fs0 : FS (WItem γ)) :
    (ofail ≠ OuterFail.ok →
      (minimal_ingest mapper docs maxc failAt ofail fs0).2 = .error () ∧
      (minimal_ingest mapper docs maxc failAt ofail fs0).1.final = fs0.final ∧
      (minimal_ingest mapper docs maxc failAt ofail fs0).1.temp = none) ∧
    (ofail = OuterFail.ok →
      (minimal_ingest mapper docs maxc failAt ofail fs0).1.temp = none ∧
      (minimal_ingest mapper docs maxc failAt ofail fs0).1.final =
        some (WItem.header ::
          (ingestDocs mapper failAt (takeDocs maxc docs) 0 true).1 ++
          [WItem.footer])) ∧
    (ofail = OuterFail.ok → failAt = none →
      (minimal_ingest mapper docs maxc failAt ofail fs0).1.final =
        some (WItem.header ::
          goodBody (((takeDocs maxc docs).map mapper).flatten) true ++
          [WItem.footer]) ∧
      (minimal_ingest mapper docs maxc failAt ofail fs0).2 =
        .ok (((takeDocs maxc docs).map mapper).flatten).length) := by
  refine ⟨?_, ?_, ?_⟩
  · intro hne
    cases ofail with
    | ok => exact absurd rfl hne
    | atHeader => exact ⟨rfl, rfl, rfl⟩
    | atFooter => exact ⟨rfl, rfl, rfl⟩
    | atRename => exact ⟨rfl, rfl, rfl⟩
  · rintro rfl
    exact ⟨rfl, rfl⟩
  · rintro rfl rfl
    constructor <;> simp [minimal_ingest, ingestDocs_no_fail]

/-- Witness for the amended C5 theorem: a footer-write failure cleans up
the temporary file and leaves the prior final content `[chunk 9]`
intact, and a failure-free run over one one-chunk document publishes the
complete collection. -/
theorem C5_minimal_ingest_outer_atomicity_witness :
    ((minimal_ingest (fun d : Nat => [d]) [1] none none OuterFail.atFooter
        ⟨some [WItem.chunk 9], none⟩).2 = .error () ∧
      (minimal_ingest (fun d : Nat => [d]) [1] none none OuterFail.atFooter
        ⟨some [WItem.chunk 9], none⟩).1.final = some [WItem.chunk 9] ∧
      (minimal_ingest (fun d : Nat => [d]) [1] none none OuterFail.atFooter
        ⟨some [WItem.chunk 9], none⟩).1.temp = none) ∧
      (minimal_ingest (fun d : Nat => [d]) [1] none none OuterFail.ok
        ⟨some [WItem.chunk 9], none⟩).1.final =
        some [WItem.header, WItem.chunk 1, WItem.footer] := by
  constructor
  · exact (C5_minimal_ingest_outer_atomicity (fun d : Nat => [d]) [1] none none
      OuterFail.atFooter ⟨some [WItem.chunk 9], none⟩).1 (by decide)
  · have h := (C5_minimal_ingest_outer_atomicity (fun d : Nat => [d]) [1] none none
      OuterFail.ok ⟨some [WItem.chunk 9], none⟩).2.2 rfl rfl
    exact h.1

/-!
## Retrieval aggregator

`ComponentQueryer.query_components` (src/query_cli.py lines 83-102; the
identical aggregation also appears in src/bckup/query_cli.py lines
39-55):

```python
grouped = \x7b\x7d
for h in hits:
    cid = h["component_id"]
    grouped.setdefault(cid, []).append(h)
results = []
for cid, hs in grouped.items():
    hs_sorted = sorted(hs, key=lambda x: -x["score"])
    results.append(\x7b "component_id": cid,
        "component_name": hs_sorted[0]["component_name"],
        "file": hs_sorted[0]["file"],
        "best_score": hs_sorted[0]["score"],
        "top_chunks": hs_sorted[:per_component] \x7d)
results.sort(key=lambda x: -x["best_score"])
return results
```

Scores only ever get compared, so they are embedded as `ℚ`.  A Python
`dict` is insertion-ordered, so `grouped` is an association list to which
`setdefault` appends a new key at the end.  Python's `sorted`/`list.sort`
are stable; a stable sort is extensionally unique, so both are embedded
as the stable descending insertion sort `stSortDesc` (an element is
inserted into the sorted rest of the list before exactly the elements
with a key at most its own, hence before later-arriving equals).
-/

structure Hit where
  component_id : List Char
  component_name : List Char
  file : List Char
  chunk_id : List Char
  text : List Char
  score : ℚ
deriving DecidableEq

structure AggResult where
  component_id : List Char
  component_name : List Char
  file : List Char
  best_score : ℚ
  top_chunks : List Hit
deriving DecidableEq

/-- Stable descending insertion by a rational key. -/
def stInsert {α : Type} (key : α → ℚ) (x : α) : List α → List α
  | [] => [x]
  | y :: ys => if key y ≤ key x then x :: y :: ys else y :: stInsert key x ys

/-- Stable descending sort by a rational key: the embedding of
`sorted(_, key=lambda v: -key(v))`. -/
def stSortDesc {α : Type} (key : α → ℚ) : List α → List α
  | [] => []
  | x :: xs => stInsert key x (stSortDesc key xs)

/-- `grouped.setdefault(cid, []).append(h)` on the insertion-ordered
association list. -/
def insertGrouped (h : Hit) : List (List Char × List Hit) → List (List Char × List Hit)
  | [] => [(h.component_id, [h])]
  | (c, hs) :: rest =>
    if c = h.component_id then (c, hs ++ [h]) :: rest
    else (c, hs) :: insertGrouped h rest

/-- The grouping loop of `query_components`. -/
def groupHits (hits : List Hit) : List (List Char × List Hit) :=
  hits.foldl (fun acc h => insertGrouped h acc) []

/-- Placeholder for `hs_sorted[0]` (groups are provably nonempty, so it
is never the value actually used). -/
def dummyHit : Hit := ⟨[], [], [], [], [], 0⟩

/-- `ComponentQueryer.query_components` after the hits are built: group,
per-group stable descending sort, per-group record, final stable
descending sort by best score. -/
def query_components (hits : List Hit) (per_component : Nat) : List AggResult :=
  stSortDesc (fun r => r.best_score)
    ((groupHits hits).map (fun p =>
      { component_id := p.1
        component_name := ((stSortDesc (fun h => h.score) p.2).headD dummyHit).component_name
        file := ((stSortDesc (fun h => h.score) p.2).headD dummyHit).file
        best_score := ((stSortDesc (fun h => h.score) p.2).headD dummyHit).score
        top_chunks := (stSortDesc (fun h => h.score) p.2).take per_component }))

/-!
Spec-side formulation (following the words of the claim): the distinct
component ids in first-arrival order; each group obtained by filtering;
the group best score as an explicit maximum; groups ordered by the same
stable descending sort.
-/

/-- Append a component id to the discovered-key list unless already
present. -/
def addCid (acc : List (List Char)) (c : List Char) : List (List Char) :=
  if c ∈ acc then acc else acc ++ [c]

/-- The distinct component ids of the hit list, in order of first
arrival (the key order of the Python dict). -/
def firstCids (hits : List Hit) : List (List Char) :=
  hits.foldl (fun acc h => addCid acc h.component_id) []

/-- All hits of one component, in arrival order. -/
def hitsFor (hits : List Hit) (c : List Char) : List Hit :=
  hits.filter (fun h => decide (h.component_id = c))

/-- The maximum score of a group of hits (0 for an empty group; only
applied to nonempty groups). -/
def maxScore : List Hit → ℚ
  | [] => 0
  | h :: t => t.foldl (fun m x => max m x.score) h.score

/-- The aggregated record of one component, per the claim's words: hits
filtered by component id, sorted by descending score, `best_score` the
maximum score, `top_chunks` truncated to `per_component`. -/
def specResult (hits : List Hit) (per_component : Nat) (c : List Char) : AggResult :=
  { component_id := c
    component_name :=
      ((stSortDesc (fun h => h.score) (hitsFor hits c)).headD dummyHit).component_name
    file := ((stSortDesc (fun h => h.score) (hitsFor hits c)).headD dummyHit).file
    best_score := maxScore (hitsFor hits c)
    top_chunks := (stSortDesc (fun h => h.score) (hitsFor hits c)).take per_component }

/-- The aggregated records in group-discovery order, before the final
ranking sort. -/
def specResults (hits : List Hit) (per_component : Nat) : List AggResult :=
  (firstCids hits).map (specResult hits per_component)

theorem stInsert_perm {α : Type} (key : α → ℚ) (x : α) (l : List α) :
    List.Perm (stInsert key x l) (x :: l) := by
  induction l with
  | nil => exact List.Perm.refl _
  | cons y ys ih =>
    by_cases h : key y ≤ key x
    · simp [stInsert, h]
    · simp only [stInsert, if_neg h]
      exact ((ih.cons y).trans (List.Perm.swap x y ys))

theorem stSortDesc_perm {α : Type} (key : α → ℚ) (l : List α) :
    List.Perm (stSortDesc key l) l := by
  induction l with
  | nil => exact List.Perm.refl _
  | cons x xs ih =>
    exact (stInsert_perm key x (stSortDesc key xs)).trans (ih.cons x)

theorem stInsert_pairwise {α : Type} (key : α → ℚ) (x : α) (l : List α)
    (hl : l.Pairwise (fun a b => key b ≤ key a)) :
    (stInsert key x l).Pairwise (fun a b => key b ≤ key a) := by
  induction l with
  | nil => simp [stInsert]
  | cons y ys ih =>
    rcases List.pairwise_cons.mp hl with ⟨hy, hys⟩
    by_cases h : key y ≤ key x
    · simp only [stInsert, if_pos h]
      refine List.pairwise_cons.mpr ⟨?_, hl⟩
      intro z hz
      rcases List.mem_cons.mp hz with rfl | hz
      · exact h
      · exact le_trans (hy z hz) h
    · simp only [stInsert, if_neg h]
      refine List.pairwise_cons.mpr ⟨?_, ih hys⟩
      intro z hz
      have hz' : z ∈ x :: ys := (stInsert_perm key x ys).mem_iff.mp hz
      rcases List.mem_cons.mp hz' with rfl | hz'
      · exact le_of_lt (lt_of_not_le h)
      · exact hy z hz'

theorem stSortDesc_pairwise {α : Type} (key : α → ℚ) (l : List α) :
    (stSortDesc key l).Pairwise (fun a b => key b ≤ key a) := by
  induction l with
  | nil => simp [stSortDesc]
  | cons x xs ih => exact stInsert_pairwise key x _ ih

theorem stInsert_filter_key {α : Type} (key : α → ℚ) (x : α) (l : List α) (v : ℚ) :
    (stInsert key x l).filter (fun a => decide (key a = v)) =
      (if key x = v then [x] else []) ++ l.filter (fun a => decide (key a = v)) := by
  induction l with
  | nil => by_cases h : key x = v <;> simp [stInsert, h]
  | cons y ys ih =>
    by_cases h : key y ≤ key x
    · rw [stInsert, if_pos h]
      by_cases hx : key x = v <;> by_cases hy : key y = v <;>
        simp [List.filter_cons, hx, hy]
    · rw [stInsert, if_neg h]
      by_cases hx : key x = v
      · have hy : ¬ key y = v := fun hyv => h (le_of_eq (by rw [hyv, hx]))
        simp [List.filter_cons, hx, hy, ih]
      · by_cases hy : key y = v <;> simp [List.filter_cons, hx, hy, ih]

theorem stSortDesc_filter_key {α : Type} (key : α → ℚ) (l : List α) (v : ℚ) :
    (stSortDesc key l).filter (fun a => decide (key a = v)) =
      l.filter (fun a => decide (key a = v)) := by
  induction l with
  | nil => rfl
  | cons x xs ih =>
    rw [stSortDesc, stInsert_filter_key, ih, List.filter_cons]
    by_cases hx : key x = v <;> simp [hx]


theorem addCid_mem (acc : List (List Char)) (d c : List Char) :
    c ∈ addCid acc d ↔ c ∈ acc ∨ c = d := by
  unfold addCid
  by_cases hd : d ∈ acc
  · rw [if_pos hd]
    exact ⟨Or.inl, fun hc => hc.elim id (fun h => h ▸ hd)⟩
  · rw [if_neg hd]
    simp

theorem addCid_nodup (acc : List (List Char)) (d : List Char)
    (h : acc.Nodup) : (addCid acc d).Nodup := by
  unfold addCid
  by_cases hd : d ∈ acc
  · rwa [if_pos hd]
  · rw [if_neg hd]
    simp [List.nodup_append, h, hd]

theorem foldl_addCid_mem (hits : List Hit) :
    ∀ (acc : List (List Char)) (c : List Char),
      c ∈ hits.foldl (fun acc h => addCid acc h.component_id) acc ↔
        c ∈ acc ∨ ∃ h ∈ hits, h.component_id = c := by
  induction hits with
  | nil => intro acc c; simp
  | cons h t ih =>
    intro acc c
    rw [List.foldl_cons, ih, addCid_mem]
    constructor
    · rintro ((hc | rfl) | ⟨x, hx, hxc⟩)
      · exact Or.inl hc
      · exact Or.inr ⟨h, List.mem_cons_self h t, rfl⟩
      · exact Or.inr ⟨x, List.mem_cons_of_mem h hx, hxc⟩
    · rintro (hc | ⟨x, hx, hxc⟩)
      · exact Or.inl (Or.inl hc)
      · rcases List.mem_cons.mp hx with rfl | hx
        · exact Or.inl (Or.inr hxc.symm)
        · exact Or.inr ⟨x, hx, hxc⟩

theorem firstCids_mem (hits : List Hit) (c : List Char) :
    c ∈ firstCids hits ↔ ∃ h ∈ hits, h.component_id = c := by
  have := foldl_addCid_mem hits [] c
  simpa [firstCids] using this

theorem firstCids_nodup (hits : List Hit) : (firstCids hits).Nodup := by
  have haux : ∀ (l : List Hit) (acc : List (List Char)), acc.Nodup →
      (l.foldl (fun acc h => addCid acc h.component_id) acc).Nodup := by
    intro l
    induction l with
    | nil => intro acc h; simpa using h
    | cons h t ih =>
      intro acc hacc
      rw [List.foldl_cons]
      exact ih _ (addCid_nodup acc h.component_id hacc)
  exact haux hits [] List.nodup_nil

theorem firstCids_append (hits : List Hit) (h : Hit) :
    firstCids (hits ++ [h]) = addCid (firstCids hits) h.component_id := by
  simp [firstCids, List.foldl_append]

theorem groupHits_append (hits : List Hit) (h : Hit) :
    groupHits (hits ++ [h]) = insertGrouped h (groupHits hits) := by
  simp [groupHits, List.foldl_append]

theorem hitsFor_append_single (hits : List Hit) (h : Hit) (c : List Char) :
    hitsFor (hits ++ [h]) c =
      hitsFor hits c ++ (if h.component_id = c then [h] else []) := by
  by_cases hc : h.component_id = c <;>
    simp [hitsFor, List.filter_append, hc]

theorem hitsFor_eq_nil (hits : List Hit) (c : List Char)
    (hc : c ∉ firstCids hits) : hitsFor hits c = [] := by
  rw [hitsFor, List.filter_eq_nil_iff]
  intro h hh
  simp only [decide_eq_true_eq]
  intro he
  exact hc ((firstCids_mem hits c).mpr ⟨h, hh, he⟩)

theorem insertGrouped_map (h : Hit) (f : List Char → List Hit) :
    ∀ (cs : List (List Char)), cs.Nodup →
      (h.component_id ∉ cs → f h.component_id = []) →
      insertGrouped h (cs.map (fun c => (c, f c))) =
        (addCid cs h.component_id).map
          (fun c => (c, f c ++ if h.component_id = c then [h] else [])) := by
  intro cs
  induction cs with
  | nil =>
    intro _ hf
    simp [insertGrouped, addCid, hf (by simp)]
  | cons c cs' ih =>
    intro hnd hf
    simp only [List.map_cons, insertGrouped]
    by_cases hc : c = h.component_id
    · rw [if_pos hc]
      subst hc
      rw [addCid, if_pos (List.mem_cons_self _ _)]
      simp only [List.map_cons, if_pos rfl]
      congr 1
      apply List.map_congr_left
      intro c' hc'
      have hne : h.component_id ≠ c' := fun he => (List.nodup_cons.mp hnd).1 (he ▸ hc')
      simp [hne]
    · rw [if_neg hc]
      have hf' : h.component_id ∉ cs' → f h.component_id = [] := by
        intro hn
        refine hf ?_
        simp only [List.mem_cons]
        rintro (he | hm)
        · exact hc he.symm
        · exact hn hm
      rw [ih (List.nodup_cons.mp hnd).2 hf']
      have hcc : ¬ h.component_id = c := fun he => hc he.symm
      by_cases hmem : h.component_id ∈ cs'
      · rw [addCid, if_pos hmem, addCid, if_pos (by simp [hmem])]
        simp [hcc]
      · rw [addCid, if_neg hmem, addCid,
          if_neg (by simp only [List.mem_cons]; rintro (he | hm); exacts [hcc he, hmem hm])]
        simp [hcc]

/-- The grouping dict in closed form: one entry per distinct component
id in first-arrival order, holding that component's hits in arrival
order. -/
theorem groupHits_eq (hits : List Hit) :
    groupHits hits = (firstCids hits).map (fun c => (c, hitsFor hits c)) := by
  induction hits using List.reverseRecOn with
  | nil => rfl
  | append_singleton hits h ih =>
    rw [groupHits_append, ih,
      insertGrouped_map h (hitsFor hits) (firstCids hits) (firstCids_nodup hits)
        (hitsFor_eq_nil hits h.component_id),
      firstCids_append]
    apply List.map_congr_left
    intro c hc
    rw [hitsFor_append_single]


theorem foldl_max_ub (t : List Hit) :
    ∀ m : ℚ, m ≤ t.foldl (fun a x => max a x.score) m ∧
      ∀ x ∈ t, x.score ≤ t.foldl (fun a x => max a x.score) m := by
  induction t with
  | nil => intro m; simp
  | cons y t ih =>
    intro m
    rw [List.foldl_cons]
    obtain ⟨h1, h2⟩ := ih (max m y.score)
    refine ⟨le_trans (le_max_left _ _) h1, ?_⟩
    intro x hx
    rcases List.mem_cons.mp hx with rfl | hx
    · exact le_trans (le_max_right _ _) h1
    · exact h2 x hx

theorem foldl_max_attained (t : List Hit) :
    ∀ m : ℚ, t.foldl (fun a x => max a x.score) m = m ∨
      ∃ x ∈ t, t.foldl (fun a x => max a x.score) m = x.score := by
  induction t with
  | nil => intro m; exact Or.inl rfl
  | cons y t ih =>
    intro m
    rw [List.foldl_cons]
    rcases ih (max m y.score) with h | ⟨x, hx, he⟩
    · rw [h]
      by_cases hm : m ≤ y.score
      · exact Or.inr ⟨y, List.mem_cons_self y t, max_eq_right hm⟩
      · exact Or.inl (max_eq_left (le_of_not_le hm))
    · exact Or.inr ⟨x, List.mem_cons_of_mem y hx, he⟩

/-- `maxScore` is the maximum of a nonempty group: an upper bound that is
attained. -/
theorem maxScore_spec (g : List Hit) (hg : g ≠ []) :
    (∀ h ∈ g, h.score ≤ maxScore g) ∧ ∃ h ∈ g, h.score = maxScore g := by
  cases g with
  | nil => exact absurd rfl hg
  | cons y t =>
    obtain ⟨h1, h2⟩ := foldl_max_ub t y.score
    constructor
    · intro h hh
      rcases List.mem_cons.mp hh with rfl | hh
      · exact h1
      · exact h2 h hh
    · rcases foldl_max_attained t y.score with h | ⟨x, hx, he⟩
      · exact ⟨y, List.mem_cons_self y t, h.symm⟩
      · exact ⟨x, List.mem_cons_of_mem y hx, he.symm⟩

/-- The head of the stable descending sort of a nonempty list is a
member whose key dominates every member. -/
theorem stSortDesc_head_max {α : Type} (key : α → ℚ) (l : List α) (d : α)
    (hl : l ≠ []) :
    (stSortDesc key l).headD d ∈ l ∧
      ∀ a ∈ l, key a ≤ key ((stSortDesc key l).headD d) := by
  have hperm := stSortDesc_perm key l
  have hne : stSortDesc key l ≠ [] := by
    intro he
    exact hl ((he ▸ hperm).symm.eq_nil)
  obtain ⟨y, ys, hys⟩ := List.exists_cons_of_ne_nil hne
  have hpw := stSortDesc_pairwise key l
  rw [hys] at hpw
  rw [hys]
  simp only [List.headD_cons]
  constructor
  · exact hperm.subset (hys ▸ List.mem_cons_self y ys)
  · intro a ha
    have ha' : a ∈ y :: ys := by
      rw [← hys]
      exact hperm.mem_iff.mpr ha
    rcases List.mem_cons.mp ha' with rfl | ha'
    · exact le_refl _
    · exact (List.pairwise_cons.mp hpw).1 a ha'

/-- A component id discovered in the hits has a nonempty group. -/
theorem hitsFor_ne_nil (hits : List Hit) (c : List Char)
    (hc : c ∈ firstCids hits) : hitsFor hits c ≠ [] := by
  obtain ⟨h, hh, he⟩ := (firstCids_mem hits c).mp hc
  intro hnil
  have hmem : h ∈ hitsFor hits c := by
    rw [hitsFor, List.mem_filter]
    exact ⟨hh, by simp [he]⟩
  rw [hnil] at hmem
  exact List.not_mem_nil h hmem

/-- The code's `best_score` (head of the descending sort) is the
spec-side maximum of the group. -/
theorem best_eq_max (hits : List Hit) (c : List Char)
    (hc : c ∈ firstCids hits) :
    ((stSortDesc (fun h => h.score) (hitsFor hits c)).headD dummyHit).score =
      maxScore (hitsFor hits c) := by
  have hne := hitsFor_ne_nil hits c hc
  obtain ⟨hmem, hub⟩ := stSortDesc_head_max (fun h => h.score) (hitsFor hits c) dummyHit hne
  obtain ⟨hub', hat⟩ := maxScore_spec _ hne
  refine le_antisymm (hub' _ hmem) ?_
  obtain ⟨x, hx, he⟩ := hat
  rw [← he]
  exact hub x hx

/-- The source aggregation equals the ranking sort of the spec-side
records. -/
theorem query_components_eq_spec (hits : List Hit) (per_component : Nat) :
    query_components hits per_component =
      stSortDesc (fun r => r.best_score) (specResults hits per_component) := by
  unfold query_components specResults
  rw [groupHits_eq, List.map_map]
  congr 1
  apply List.map_congr_left
  intro c hc
  unfold specResult
  simp only [Function.comp_apply]
  rw [best_eq_max hits c hc]


/-- The rational 0.9, given in normal form so that kernel evaluation
(`decide`) does not have to run rational normalization. -/
def score09 : ℚ := ⟨9, 10, by decide, by decide⟩

/-- The rational 0.5. -/
def score05 : ℚ := ⟨1, 2, by decide, by decide⟩

/-- The rational 0.7. -/
def score07 : ℚ := ⟨7, 10, by decide, by decide⟩

theorem score09_eq : score09 = 9/10 := by
  have h1 : ((9:ℚ)/10).num = 9 := by norm_num
  have h2 : ((9:ℚ)/10).den = 10 := by norm_num
  cases hq : (9:ℚ)/10 with
  | mk' n d nz red =>
    rw [hq] at h1 h2
    simp at h1 h2
    unfold score09
    subst h1
    subst h2
    rfl

theorem score05_eq : score05 = 1/2 := by
  have h1 : ((1:ℚ)/2).num = 1 := by norm_num
  have h2 : ((1:ℚ)/2).den = 2 := by norm_num
  cases hq : (1:ℚ)/2 with
  | mk' n d nz red =>
    rw [hq] at h1 h2
    simp at h1 h2
    unfold score05
    subst h1
    subst h2
    rfl

theorem score07_eq : score07 = 7/10 := by
  have h1 : ((7:ℚ)/10).num = 7 := by norm_num
  have h2 : ((7:ℚ)/10).den = 10 := by norm_num
  cases hq : (7:ℚ)/10 with
  | mk' n d nz red =>
    rw [hq] at h1 h2
    simp at h1 h2
    unfold score07
    subst h1
    subst h2
    rfl

/-- The hits of the spec's aggregation example: `(A,0.9), (B,0.5),
(A,0.7)`. -/
def hitA1 : Hit :=
  ⟨"A".toList, "CompA".toList, "fA".toList, "a1".toList, "tA1".toList, score09⟩

def hitB1 : Hit :=
  ⟨"B".toList, "CompB".toList, "fB".toList, "b1".toList, "tB1".toList, score05⟩

def hitA2 : Hit :=
  ⟨"A".toList, "CompA".toList, "fA".toList, "a2".toList, "tA2".toList, score07⟩

/-- C3: the aggregator (i) equals the spec-side formulation — group the
hits by component id in first-arrival order, sort each group by
descending score (stable), take the group's maximum score as
`best_score`, truncate each group to `per_component`, and rank the
groups with the stable descending sort by `best_score`; (ii) its output
is sorted by descending `best_score`; (iii) groups with equal
`best_score` appear in group-discovery order (the filter at any score
level equals the discovery-ordered filter — the stability tie-break);
and (iv) on the example hits `[(A,0.9),(B,0.5),(A,0.7)]` with
`per_component = 1` it returns `A` (best 0.9, top `[(A,0.9)]`) before
`B` (best 0.5, top `[(B,0.5)]`). -/
theorem C3_aggregator_grouping_ranking (hits : List Hit) (per_component : Nat) :
    query_components hits per_component =
      stSortDesc (fun r => r.best_score) (specResults hits per_component) ∧
    (query_components hits per_component).Pairwise
      (fun a b => b.best_score ≤ a.best_score) ∧
    (∀ v : ℚ, (query_components hits per_component).filter
        (fun r => decide (r.best_score = v)) =
      (specResults hits per_component).filter
        (fun r => decide (r.best_score = v))) ∧
    query_components [hitA1, hitB1, hitA2] 1 =
      [⟨"A".toList, "CompA".toList, "fA".toList, score09, [hitA1]⟩,
        ⟨"B".toList, "CompB".toList, "fB".toList, score05, [hitB1]⟩] := by
  refine ⟨query_components_eq_spec hits per_component, ?_, ?_, ?_⟩
  · unfold query_components
    exact stSortDesc_pairwise _ _
  · intro v
    rw [query_components_eq_spec, stSortDesc_filter_key]
  · decide

/-- C10: with `per_component ≥ 1`, every aggregated result has nonempty
`top_chunks`; every chunk in a result's `top_chunks` carries that
result's `component_id`; `best_score` is the maximum score among the
input hits of that component (an attained upper bound); and there is
exactly one result per distinct `component_id` of the input hits. -/
theorem C10_aggregator_invariants (hits : List Hit) (per_component : Nat)
    (hpc : 1 ≤ per_component) :
    (∀ r ∈ query_components hits per_component,
      r.top_chunks ≠ [] ∧
      (∀ h ∈ r.top_chunks, h.component_id = r.component_id) ∧
      (∀ h ∈ hits, h.component_id = r.component_id → h.score ≤ r.best_score) ∧
      (∃ h ∈ hits, h.component_id = r.component_id ∧ h.score = r.best_score)) ∧
    (query_components hits per_component).length =
      (hits.map (fun h => h.component_id)).dedup.length := by
  constructor
  · intro r hr
    rw [query_components_eq_spec] at hr
    have hr' : r ∈ specResults hits per_component := (stSortDesc_perm _ _).subset hr
    obtain ⟨c, hc, rfl⟩ := List.mem_map.mp hr'
    have hne := hitsFor_ne_nil hits c hc
    have hsortne : stSortDesc (fun h => h.score) (hitsFor hits c) ≠ [] := by
      intro he
      have hp := stSortDesc_perm (fun h : Hit => h.score) (hitsFor hits c)
      rw [he] at hp
      exact hne hp.symm.eq_nil
    obtain ⟨y, ys, hys⟩ := List.exists_cons_of_ne_nil hsortne
    refine ⟨?_, ?_, ?_, ?_⟩
    · simp only [specResult]
      rw [hys]
      cases per_component with
      | zero => omega
      | succ n => simp
    · intro h hh
      simp only [specResult] at hh ⊢
      have h1 : h ∈ stSortDesc (fun h => h.score) (hitsFor hits c) :=
        List.take_subset _ _ hh
      have h2 : h ∈ hitsFor hits c := (stSortDesc_perm _ _).subset h1
      rw [hitsFor, List.mem_filter] at h2
      simpa using h2.2
    · intro h hh he
      simp only [specResult] at he ⊢
      have h2 : h ∈ hitsFor hits c := by
        rw [hitsFor, List.mem_filter]
        exact ⟨hh, by simp [he]⟩
      exact (maxScore_spec _ hne).1 h h2
    · obtain ⟨x, hx, hxe⟩ := (maxScore_spec _ hne).2
      rw [hitsFor, List.mem_filter] at hx
      refine ⟨x, hx.1, by simpa using hx.2, by simpa [specResult] using hxe⟩
  · rw [query_components_eq_spec, (stSortDesc_perm _ _).length_eq]
    unfold specResults
    rw [List.length_map]
    have hperm : List.Perm (firstCids hits)
        ((hits.map (fun h => h.component_id)).dedup) := by
      rw [List.perm_ext_iff_of_nodup (firstCids_nodup hits) (List.nodup_dedup _)]
      intro a
      rw [List.mem_dedup, List.mem_map, firstCids_mem hits a]
    exact hperm.length_eq

/-- Witness for C10 at the example hits with `per_component = 1`: two
results for the two distinct component ids. -/
theorem C10_aggregator_invariants_witness :
    (query_components [hitA1, hitB1, hitA2] 1).length =
      ([hitA1, hitB1, hitA2].map (fun h => h.component_id)).dedup.length :=
  (C10_aggregator_invariants [hitA1, hitB1, hitA2] 1 (by decide)).2

end PocRag
